import Mathlib

/-!
Verification development for the Family-Tree program (src/FileName1.cpp).

Shallow embedding conventions:
* A `FamilyMember*` pointer is embedded as a `Nat` index into the member
  pool (`memberPool` in the source is a `List Member` here); pointer
  identity becomes index equality, and `NULL` becomes `none`.
* The `firstChild`/`nextSibling` chain of a member is embedded as the list
  `Member.children` (traversing the chain yields that list, and
  `FamilyMember::addChild` appends at the end of the chain).
* C strings (`char name[64]`) are embedded as `List Char`; `copyName`
  truncates to 63 characters.
* The `FamilyPair` linked list (`next` pointers) is embedded as
  `List FamilyPair`; the dynamic `children` array is a `List Nat`.
-/

/-- Display limit for names, `const int MAX_NAME = 15` in the source. -/
def MAX_NAME : Nat := 15

/-- Horizontal gap between family blocks, `const int HSPACE = 6`. -/
def HSPACE : Nat := 6

/-- One individual: `class FamilyMember` (FileName1.cpp lines 20-69).
`father`/`mother` are the two parent pointers, `children` is the
`firstChild`/`nextSibling` chain in order. -/
structure Member where
  name : List Char
  gender : Char
  alive : Bool
  father : Option Nat
  mother : Option Nat
  children : List Nat
deriving DecidableEq

/-- The `FamilyMember` constructor (lines 38-43): `copyName` keeps at most 63
characters, gender is normalized to 'M' exactly for inputs 'M'/'m' and to 'F'
otherwise, and all four links start `NULL`. -/
def mkMember (n : List Char) (g : Char) (isAlive : Bool) : Member :=
  { name := n.take 63
    gender := if g = 'M' ∨ g = 'm' then 'M' else 'F'
    alive := isAlive
    father := none
    mother := none
    children := [] }

/-- One family unit: `class FamilyPair` (lines 75-172), minus the `next`
pointer which is embedded by putting pairs in a `List`. -/
structure FamilyPair where
  father : Option Nat
  mother : Option Nat
  children : List Nat
deriving DecidableEq

/-- The grouping key of a pair, compared by reference identity in the source
(`cf == f && cm == m`). -/
def pairKey (p : FamilyPair) : Option Nat × Option Nat := (p.father, p.mother)

/-- Field access through the pool: father pointer of member `i`
(`NULL`, i.e. `none`, when `i` is not a pool index). -/
def fatherOf (reg : List Member) (i : Nat) : Option Nat :=
  match reg[i]? with
  | some m => m.father
  | none => none

/-- Mother pointer of member `i`. -/
def motherOf (reg : List Member) (i : Nat) : Option Nat :=
  match reg[i]? with
  | some m => m.mother
  | none => none

/-- The `firstChild`/`nextSibling` chain of member `i`, as a list. -/
def childrenOf (reg : List Member) (i : Nat) : List Nat :=
  match reg[i]? with
  | some m => m.children
  | none => []

/-- Stored name of member `i`. -/
def nameOf (reg : List Member) (i : Nat) : List Char :=
  match reg[i]? with
  | some m => m.name
  | none => []

/-- Stored gender of member `i` (only read through valid pool indices). -/
def genderOf (reg : List Member) (i : Nat) : Char :=
  match reg[i]? with
  | some m => m.gender
  | none => 'M'

/-- The parent-pair key of member `i`: `(child->getFather(), child->getMother())`. -/
def keyOf (reg : List Member) (i : Nat) : Option Nat × Option Nat :=
  (fatherOf reg i, motherOf reg i)

/-- One step of the grouping loops (lines 248-261, 485-494 and 641-652):
scan the pair list from the head; the first pair whose `(father, mother)`
key equals `(f, m)` receives the child (`FamilyPair::addChild` appends to the
children array); if no pair matches, a new pair holding only this child is
appended at the tail. -/
def addToPairs (ps : List FamilyPair) (f m : Option Nat) (c : Nat) : List FamilyPair :=
  match ps with
  | [] => [⟨f, m, [c]⟩]
  | p :: rest =>
    if p.father = f ∧ p.mother = m then
      { p with children := p.children ++ [c] } :: rest
    else
      p :: addToPairs rest f m c

/-- `FamilyTree::buildFamilyPairsForMembers` (lines 236-264): iterate the
given members in order and group each one by its `(father, mother)` key. -/
def buildFamilyPairsForMembers (reg : List Member) (ids : List Nat) : List FamilyPair :=
  ids.foldl (fun ps i => addToPairs ps (fatherOf reg i) (motherOf reg i) i) []

/-- The generation-0 seeding condition of `showCenteredTree` (lines 479-481):
`f == root || m == root`, or `!f && !m && ch == root`. -/
def seedPred (reg : List Member) (root i : Nat) : Prop :=
  fatherOf reg i = some root ∨ motherOf reg i = some root ∨
    (fatherOf reg i = none ∧ motherOf reg i = none ∧ i = root)

instance (reg : List Member) (root i : Nat) : Decidable (seedPred reg root i) := by
  unfold seedPred
  exact inferInstance

/-- Generation 0 of `showCenteredTree` (lines 474-495): walk the whole member
pool in order; members satisfying the seeding condition are grouped by their
`(father, mother)` key, all others are skipped. -/
def gen0 (reg : List Member) (root : Nat) : List FamilyPair :=
  (List.range reg.length).foldl
    (fun ps i =>
      if seedPred reg root i then addToPairs ps (fatherOf reg i) (motherOf reg i) i
      else ps)
    []

/-- The fallback of `showCenteredTree` (lines 501-506): when the seeded list
is empty, the walk starts from a single pair `(NULL, NULL)` whose only child
is the root. -/
def initialGen (reg : List Member) (root : Nat) : List FamilyPair :=
  match gen0 reg root with
  | [] => [⟨none, none, [root]⟩]
  | p :: rest => p :: rest

/-- Duplicate-free accumulation (lines 620-627): append each element of `l`
to `acc` unless it is already present. -/
def dedupAppend {α : Type} [DecidableEq α] (acc : List α) (l : List α) : List α :=
  l.foldl (fun a c => if c ∈ a then a else a ++ [c]) acc

/-- `childList` collection of `showCenteredTree` (lines 615-628): gather the
children of all pairs of the current generation, in order, skipping
duplicates. -/
def collectChildren (gen : List FamilyPair) : List Nat :=
  gen.foldl (fun acc p => dedupAppend acc p.children) []

/-- Expansion of one potential parent (lines 631-655): a collected child with
an empty `firstChild` chain is skipped (`continue`); otherwise every member
of its chain is grouped into the next generation by its own
`(father, mother)` key. -/
def expandParent (reg : List Member) (ng : List FamilyPair) (i : Nat) : List FamilyPair :=
  if childrenOf reg i = [] then ng
  else (childrenOf reg i).foldl (fun a c => addToPairs a (fatherOf reg c) (motherOf reg c) c) ng

/-- One generation step of `showCenteredTree`: build the next generation's
pair list from the de-duplicated children of the current generation. -/
def nextGenOf (reg : List Member) (gen : List FamilyPair) : List FamilyPair :=
  (collectChildren gen).foldl (expandParent reg) []

/-- All children of a generation's pairs, in pair order (specification-side
helper used to reason about the walk). -/
def allChildren : List FamilyPair → List Nat
  | [] => []
  | p :: rest => p.children ++ allChildren rest

/-- The parents whose `firstChild` chain gets expanded when stepping from
`gen` to the next generation: collected children that have a nonempty chain. -/
def expandedParents (reg : List Member) (gen : List FamilyPair) : List Nat :=
  (collectChildren gen).filter (fun i => !(childrenOf reg i).isEmpty)

/-- Fueled trace of the expanded parents across the whole walk: the loop of
lines 510-675 runs while the current generation is nonempty. -/
def walkExpanded (reg : List Member) : Nat → List FamilyPair → List Nat
  | 0, _ => []
  | n + 1, gen =>
    if gen = [] then []
    else expandedParents reg gen ++ walkExpanded reg n (nextGenOf reg gen)

/-- Name truncation for display: keep at most `MAX_NAME` characters. -/
def truncName (s : List Char) : List Char := s.take MAX_NAME

/-- `FamilyPair::parentLine` (lines 127-158) writing into a buffer of
`outSize = 256`: every write is guarded by `p < outSize - 1 = 255`. The
guards are kept here; each `let` mirrors one write phase of the source. -/
def parentLineRaw (fn mn : List Char) (fg mg : Char) : List Char :=
  let tf := fn.take MAX_NAME
  let tm := mn.take MAX_NAME
  let b1 := tf.take 255
  let b2 := if b1.length < 255 then b1 ++ [' ', '(', fg, ')'] else b1
  let b3 := if b2.length < 255 then b2 ++ [' ', '-', ' '] else b2
  let b4 := b3 ++ tm.take (255 - b3.length)
  if b4.length < 255 then b4 ++ [' ', '(', mg, ')'] else b4

/-- Parent line of a pair: absent parents print as `"Unknown"` with default
genders 'M' (father) / 'F' (mother) (lines 129-143). -/
def parentLine (reg : List Member) (p : FamilyPair) : List Char :=
  let fn := match p.father with | some i => nameOf reg i | none => "Unknown".toList
  let mn := match p.mother with | some i => nameOf reg i | none => "Unknown".toList
  let fg := match p.father with | some i => genderOf reg i | none => 'M'
  let mg := match p.mother with | some i => genderOf reg i | none => 'F'
  parentLineRaw fn mn fg mg

/-- The parent-line format as the specification words it:
truncated father name, " (g) - ", truncated mother name, " (g)". -/
def parentLineSpec (fn mn : List Char) (fg mg : Char) : List Char :=
  fn.take MAX_NAME ++ [' ', '(', fg, ')', ' ', '-', ' '] ++
    mn.take MAX_NAME ++ [' ', '(', mg, ')']

/-- `FamilyPair::childrenLine` (lines 161-171) at buffer size 256, tracking
the write position `p`: each name contributes characters while fewer than
`MAX_NAME` of it are written and `p < 255`; a single-space separator follows
every name but the last, again only while `p < 255`. -/
def childrenLineGo : List (List Char) → Nat → List Char
  | [], _ => []
  | cn :: rest, p =>
    let w := cn.take (min MAX_NAME (255 - p))
    if rest = [] then w
    else if p + w.length < 255 then w ++ ' ' :: childrenLineGo rest (p + w.length + 1)
    else w ++ childrenLineGo rest (p + w.length)

/-- Children line of a pair: the names of its children written through the
capped buffer, starting at position 0. -/
def childrenLine (reg : List Member) (p : FamilyPair) : List Char :=
  childrenLineGo (p.children.map (nameOf reg)) 0

/-- Modelled from the spec: the children line as §4.3 words it — "truncated
child names joined with single spaces" — with no buffer limit. Used to
compare the source's capped `childrenLineGo` against the spec's words. -/
def childrenLineSpec : List (List Char) → List Char
  | [] => []
  | cn :: rest =>
    if rest = [] then cn.take MAX_NAME
    else cn.take MAX_NAME ++ ' ' :: childrenLineSpec rest

/-- Display width of a family block (lines 532-537): the larger of the two
line lengths, raised to at least 6. -/
def widthOf (reg : List Member) (p : FamilyPair) : Nat :=
  let w := (parentLine reg p).length
  let w2 := (childrenLine reg p).length
  let ww := if w > w2 then w else w2
  if ww < 6 then 6 else ww

/-- Centering used for both printed rows (lines 551-559 and 579-586):
`padLeft = (width - len) / 2` spaces, the text, then `width - padLeft - len`
closing spaces. -/
def padCenter (width : Nat) (text : List Char) : List Char :=
  let len := text.length
  let padLeft := (width - len) / 2
  List.replicate padLeft ' ' ++ text ++ List.replicate (width - padLeft - len) ' '

/-- `FamilyPair::getChild` (lines 117-118): `i` is a C++ `int`, so the guard
`i >= 0 && i < childCount` is over `Int`; out of range yields `NULL`. -/
def getChild (p : FamilyPair) (i : Int) : Option Nat :=
  if 0 ≤ i ∧ i < (p.children.length : Int) then p.children[i.toNat]? else none

/-- Whole-program state: the root pointer and the member pool
(`FamilyTree::root`, `memberPool`). -/
structure TreeState where
  root : Option Nat
  reg : List Member
deriving DecidableEq

/-- Pointwise update of pool slot `i` (a mutation through a member pointer). -/
def regModify (reg : List Member) (i : Nat) (f : Member → Member) : List Member :=
  match reg[i]? with
  | some m => reg.set i (f m)
  | none => reg

/-- `FamilyMember::addChild` (lines 60-68): append `c` at the end of the
`firstChild`/`nextSibling` chain. -/
def addChildTo (c : Nat) (m : Member) : Member :=
  { m with children := m.children ++ [c] }

/-- `FamilyTree::findByName` (lines 218-223): linear scan of the pool, first
name match wins. -/
def findByNameAux : List Member → List Char → Nat → Option Nat
  | [], _, _ => none
  | m :: rest, n, i => if m.name = n then some i else findByNameAux rest n (i + 1)

/-- Lookup of a member index by name. -/
def findByName (reg : List Member) (n : List Char) : Option Nat :=
  findByNameAux reg n 0

/-- `FamilyTree::createRootInteractive` (lines 293-305): refuses when a root
exists or the name is empty; otherwise the new member is pooled and becomes
the root. -/
def createRoot (st : TreeState) (n : List Char) (g : Char) (alive : Bool) : TreeState :=
  match st.root with
  | some _ => st
  | none =>
    if n = [] then st
    else { root := some st.reg.length, reg := st.reg ++ [mkMember n g alive] }

/-- Net effect of one parent prompt of `addMemberInteractive` (lines 325-402):
either no name was given (or lookup missed and creation was declined), or an
existing member was found by name, or a missing member was created, pooled
and attached under the root for visibility. The spouse-completion prompts
(lines 367-402) resolve a parent through exactly the same three outcomes. -/
inductive ParentSpec where
  | unspecified
  | lookup (n : List Char)
  | createIfMissing (n : List Char) (g : Char) (alive : Bool)
deriving DecidableEq

/-- Resolve one parent prompt against the current state. -/
def resolveParent (st : TreeState) (root : Nat) (ps : ParentSpec) :
    Option Nat × TreeState :=
  match ps with
  | .unspecified => (none, st)
  | .lookup n => (findByName st.reg n, st)
  | .createIfMissing n g a =>
    match findByName st.reg n with
    | some i => (some i, st)
    | none =>
      let newId := st.reg.length
      let reg1 := st.reg ++ [mkMember n g a]
      (some newId, { st with reg := regModify reg1 root (addChildTo newId) })

/-- `FamilyTree::addMemberInteractive` (lines 307-425): guards (root must
exist, name nonempty and fresh), parent resolution, then the new member is
pooled with its parent pointers set; it is appended to the father's chain,
else to the mother's chain, else to the root's chain. -/
def addMember (st : TreeState) (n : List Char) (g : Char) (alive : Bool)
    (fs ms : ParentSpec) : TreeState :=
  match st.root with
  | none => st
  | some root =>
    if n = [] then st
    else if (findByName st.reg n).isSome then st
    else
      let r1 := resolveParent st root fs
      let r2 := resolveParent r1.2 root ms
      let fOpt := r1.1
      let mOpt := r2.1
      let st2 := r2.2
      let newId := st2.reg.length
      let nm := { mkMember n g alive with father := fOpt, mother := mOpt }
      let reg3 := st2.reg ++ [nm]
      let reg4 :=
        match fOpt with
        | some fi => regModify reg3 fi (addChildTo newId)
        | none => reg3
      let reg5 :=
        match mOpt, fOpt with
        | some mi, none => regModify reg4 mi (addChildTo newId)
        | _, _ => reg4
      let reg6 :=
        if fOpt = none ∧ mOpt = none then regModify reg5 root (addChildTo newId)
        else reg5
      { st2 with reg := reg6 }

/-- `FamilyTree::markLateInteractive` (lines 427-441): requires a root, a
nonempty name, a successful lookup, a currently-alive member and a `y`
confirmation; only then is the member's alive flag cleared. -/
def markLate (st : TreeState) (n : List Char) (confirm : Bool) : TreeState :=
  match st.root with
  | none => st
  | some _ =>
    if n = [] then st
    else
      match findByName st.reg n with
      | none => st
      | some i =>
        match st.reg[i]? with
        | none => st
        | some m =>
          if m.alive = false then st
          else if confirm then { st with reg := st.reg.set i { m with alive := false } }
          else st

/-- States reachable through the program's operations, starting from the
empty tree built by the `FamilyTree` constructor (line 283). -/
inductive Reachable : TreeState → Prop
  | start : Reachable ⟨none, []⟩
  | step_root (st : TreeState) (n : List Char) (g : Char) (a : Bool) :
      Reachable st → Reachable (createRoot st n g a)
  | step_add (st : TreeState) (n : List Char) (g : Char) (a : Bool)
      (fs ms : ParentSpec) : Reachable st → Reachable (addMember st n g a fs ms)
  | step_late (st : TreeState) (n : List Char) (c : Bool) :
      Reachable st → Reachable (markLate st n c)

/-- First-seen key order (specification-side): the keys of a sequence in the
order of their first occurrence. -/
def firstKeys (ks : List (Option Nat × Option Nat)) : List (Option Nat × Option Nat) :=
  dedupAppend [] ks

/-- Maximum of a list of naturals, 0 for the empty list. -/
def listMax : List Nat → Nat
  | [] => 0
  | x :: xs => max x (listMax xs)

/-- Modelled from the spec: the condition under which §4.2's fallback
sentence says generation 0 "would be empty" — no individual references the
root as a parent, and the root itself has no recorded parents. -/
def specEmptyCond (reg : List Member) (root : Nat) : Prop :=
  (∀ i, fatherOf reg i ≠ some root ∧ motherOf reg i ≠ some root) ∧
  fatherOf reg root = none ∧ motherOf reg root = none

/-- Concrete registry: a lone root with no parents and no children. -/
def reg1 : List Member := [⟨['A'], 'F', true, none, none, []⟩]

/-- Concrete registry: root R (index 0) with child A (index 1, father R) and
grandchild G (index 2, father A); child chains [1], [2], []. -/
def reg3 : List Member :=
  [⟨['R'], 'M', true, none, none, [1]⟩,
   ⟨['A'], 'M', true, some 0, none, [2]⟩,
   ⟨['G'], 'M', true, some 1, none, []⟩]

/-- A 15-character name. -/
def name15 : List Char := "ABCDEFGHIJKLMNO".toList

/-- A 16-character name, longer than the display limit. -/
def longName : List Char := "ABCDEFGHIJKLMNOP".toList

/-- Seventeen members all carrying 15-character names. -/
def reg17 : List Member := List.replicate 17 ⟨name15, 'M', true, none, none, []⟩

/-- One family unit holding all seventeen members as children. -/
def pair17 : FamilyPair := ⟨none, none, List.range 17⟩

/-- A small family unit with two children. -/
def demoPair : FamilyPair := ⟨none, none, [5, 7]⟩

/-- The state after creating a root named "r" with an invalid gender letter. -/
def demoState : TreeState := createRoot ⟨none, []⟩ ['r'] 'x' true

/-- The member record demoState's pool holds at index 0. -/
def demoMember : Member := ⟨['r'], 'F', true, none, none, []⟩

/-! ### Helper lemmas on the grouping primitives -/

theorem fatherOf_of_le (reg : List Member) (i : Nat) (h : reg.length ≤ i) :
    fatherOf reg i = none := by
  unfold fatherOf
  rw [List.getElem?_eq_none h]

theorem motherOf_of_le (reg : List Member) (i : Nat) (h : reg.length ≤ i) :
    motherOf reg i = none := by
  unfold motherOf
  rw [List.getElem?_eq_none h]

theorem childrenOf_of_le (reg : List Member) (i : Nat) (h : reg.length ≤ i) :
    childrenOf reg i = [] := by
  unfold childrenOf
  rw [List.getElem?_eq_none h]


theorem mem_dedupAppend {α : Type} [DecidableEq α] (acc l : List α) (x : α) :
    x ∈ dedupAppend acc l ↔ x ∈ acc ∨ x ∈ l := by
  induction l generalizing acc with
  | nil => simp [dedupAppend]
  | cons c cs ih =>
    unfold dedupAppend
    rw [List.foldl_cons]
    show x ∈ dedupAppend (if c ∈ acc then acc else acc ++ [c]) cs ↔ _
    rw [ih]
    by_cases hc : c ∈ acc
    · rw [if_pos hc]
      constructor
      · rintro (h | h)
        · exact Or.inl h
        · exact Or.inr (List.mem_cons_of_mem _ h)
      · rintro (h | h)
        · exact Or.inl h
        · rcases List.mem_cons.mp h with h1 | h1
          · exact Or.inl (h1 ▸ hc)
          · exact Or.inr h1
    · rw [if_neg hc]
      simp only [List.mem_append, List.mem_singleton, List.mem_cons]
      tauto

theorem nodup_dedupAppend {α : Type} [DecidableEq α] (acc l : List α)
    (h : acc.Nodup) : (dedupAppend acc l).Nodup := by
  induction l generalizing acc with
  | nil => simpa [dedupAppend] using h
  | cons c cs ih =>
    unfold dedupAppend
    rw [List.foldl_cons]
    show (dedupAppend (if c ∈ acc then acc else acc ++ [c]) cs).Nodup
    apply ih
    by_cases hc : c ∈ acc
    · rwa [if_pos hc]
    · rw [if_neg hc]
      simp [List.nodup_append, h, hc]

theorem ite_irrel {α : Type} {c : Prop} (i1 i2 : Decidable c) (a b : α) :
    @ite α c i1 a b = @ite α c i2 a b := by
  rw [Subsingleton.elim i1 i2]

theorem dedupAppend_concat {α : Type} [DecidableEq α] (acc l : List α) (k : α) :
    dedupAppend acc (l ++ [k]) =
      if k ∈ dedupAppend acc l then dedupAppend acc l else dedupAppend acc l ++ [k] := by
  unfold dedupAppend
  rw [List.foldl_append, List.foldl_cons, List.foldl_nil]

theorem firstKeys_concat (ks : List (Option Nat × Option Nat))
    (k : Option Nat × Option Nat) :
    firstKeys (ks ++ [k]) =
      if k ∈ firstKeys ks then firstKeys ks else firstKeys ks ++ [k] := by
  unfold firstKeys
  rw [dedupAppend_concat]
  apply ite_irrel

theorem mem_firstKeys (ks : List (Option Nat × Option Nat))
    (k : Option Nat × Option Nat) : k ∈ firstKeys ks ↔ k ∈ ks := by
  unfold firstKeys
  rw [mem_dedupAppend]
  simp

theorem nodup_firstKeys (ks : List (Option Nat × Option Nat)) :
    (firstKeys ks).Nodup := nodup_dedupAppend [] ks List.nodup_nil

theorem addToPairs_keys (ps : List FamilyPair) (f m : Option Nat) (c : Nat) :
    (addToPairs ps f m c).map pairKey =
      if (f, m) ∈ ps.map pairKey then ps.map pairKey
      else ps.map pairKey ++ [(f, m)] := by
  induction ps with
  | nil => simp [addToPairs, pairKey]
  | cons p rest ih =>
    by_cases hp : p.father = f ∧ p.mother = m
    · have hk : pairKey p = (f, m) := by
        unfold pairKey
        rw [hp.1, hp.2]

      simp only [addToPairs, if_pos hp, List.map_cons]
      have hsame : pairKey { p with children := p.children ++ [c] } = pairKey p := rfl
      rw [hsame, hk, if_pos (List.mem_cons_self _ _)]
    · have hk : pairKey p ≠ (f, m) := by
        intro hcontra
        exact hp ⟨congrArg Prod.fst hcontra, congrArg Prod.snd hcontra⟩
      simp only [addToPairs, if_neg hp, List.map_cons, ih]
      by_cases hm : (f, m) ∈ rest.map pairKey
      · rw [if_pos hm, if_pos (List.mem_cons_of_mem _ hm)]
      · rw [if_neg hm, if_neg ?_, List.cons_append]
        intro hmem
        rcases List.mem_cons.mp hmem with h1 | h1
        · exact hk h1.symm
        · exact hm h1

theorem addToPairs_children (ps : List FamilyPair) (f m : Option Nat) (c : Nat)
    (hnd : (ps.map pairKey).Nodup) (q : FamilyPair) (hq : q ∈ addToPairs ps f m c) :
    (pairKey q ≠ (f, m) ∧ q ∈ ps) ∨
    (pairKey q = (f, m) ∧
      ∃ p, p ∈ ps ∧ pairKey p = (f, m) ∧ q = { p with children := p.children ++ [c] }) ∨
    (pairKey q = (f, m) ∧ (f, m) ∉ ps.map pairKey ∧ q = ⟨f, m, [c]⟩) := by
  induction ps with
  | nil =>
    simp only [addToPairs, List.mem_singleton] at hq
    subst hq
    right; right
    exact ⟨rfl, by simp, rfl⟩
  | cons p rest ih =>
    rw [List.map_cons, List.nodup_cons] at hnd
    by_cases hp : p.father = f ∧ p.mother = m
    · have hk : pairKey p = (f, m) := by
        unfold pairKey
        rw [hp.1, hp.2]
      simp only [addToPairs, if_pos hp] at hq
      rcases List.mem_cons.mp hq with hq1 | hq1
      · right; left
        refine ⟨?_, p, List.mem_cons_self _ _, hk, hq1⟩
        rw [hq1]
        exact hk
      · left
        refine ⟨?_, List.mem_cons_of_mem _ hq1⟩
        intro hcontra
        have hqm : pairKey q ∈ rest.map pairKey := List.mem_map_of_mem _ hq1
        rw [hcontra, ← hk] at hqm
        exact hnd.1 hqm
    · have hk : pairKey p ≠ (f, m) := by
        intro hcontra
        exact hp ⟨congrArg Prod.fst hcontra, congrArg Prod.snd hcontra⟩
      simp only [addToPairs, if_neg hp, List.mem_cons] at hq
      rcases hq with hq1 | hq1
      · left
        subst hq1
        exact ⟨hk, List.mem_cons_self _ _⟩
      · rcases ih hnd.2 hq1 with h | ⟨he, p', hp', hk', hq'⟩ | ⟨he, hnm, hq'⟩
        · exact Or.inl ⟨h.1, List.mem_cons_of_mem _ h.2⟩
        · exact Or.inr (Or.inl ⟨he, p', List.mem_cons_of_mem _ hp', hk', hq'⟩)
        · refine Or.inr (Or.inr ⟨he, ?_, hq'⟩)
          rw [List.map_cons]
          intro hmem
          rcases List.mem_cons.mp hmem with h1 | h1
          · exact hk h1.symm
          · exact hnm h1

theorem addToPairs_step_keys (reg : List Member) (ps : List FamilyPair)
    (seen : List Nat) (c : Nat)
    (h1 : ps.map pairKey = firstKeys (seen.map (keyOf reg))) :
    (addToPairs ps (fatherOf reg c) (motherOf reg c) c).map pairKey =
      firstKeys ((seen ++ [c]).map (keyOf reg)) := by
  rw [addToPairs_keys, h1, List.map_append]
  have hmap : [c].map (keyOf reg) = [keyOf reg c] := rfl
  rw [hmap, firstKeys_concat]
  rfl

theorem addToPairs_step_children (reg : List Member) (ps : List FamilyPair)
    (seen : List Nat) (c : Nat)
    (h1 : ps.map pairKey = firstKeys (seen.map (keyOf reg)))
    (h2 : ∀ p ∈ ps, p.children = seen.filter (fun i => decide (keyOf reg i = pairKey p))) :
    ∀ q ∈ addToPairs ps (fatherOf reg c) (motherOf reg c) c,
      q.children = (seen ++ [c]).filter (fun i => decide (keyOf reg i = pairKey q)) := by
  intro q hq
  have hnd : (ps.map pairKey).Nodup := by
    rw [h1]
    exact nodup_firstKeys _
  rcases addToPairs_children ps _ _ c hnd q hq with
    ⟨hne, hmem⟩ | ⟨he, p', hp', hk', hq'⟩ | ⟨he, hnm, hq'⟩
  · rw [List.filter_append, h2 q hmem]
    have hfc : ¬ (keyOf reg c = pairKey q) := by
      intro h
      exact hne (h.symm)
    simp [List.filter_cons, hfc]
  · have hkq : pairKey q = pairKey p' := by rw [he, hk']
    have hceq : keyOf reg c = pairKey p' := by
      unfold keyOf
      exact hk'.symm
    have hch : q.children = p'.children ++ [c] := by rw [hq']
    rw [hch, hkq, List.filter_append, h2 p' hp']
    simp [List.filter_cons, hceq]
  · have hceq : keyOf reg c = pairKey q := by
      unfold keyOf
      exact he.symm
    have hnseen : keyOf reg c ∉ seen.map (keyOf reg) := by
      rw [← mem_firstKeys, ← h1]
      intro hmm
      exact hnm hmm
    have hch : q.children = [c] := by rw [hq']
    have hfil : seen.filter (fun i => decide (keyOf reg i = pairKey q)) = [] := by
      rw [List.filter_eq_nil_iff]
      intro a ha
      simp only [decide_eq_true_eq]
      intro heq
      apply hnseen
      rw [hceq, ← heq]
      exact List.mem_map_of_mem _ ha
    rw [hch, List.filter_append, hfil]
    simp [List.filter_cons, hceq]

theorem buildPairs_invariant (reg : List Member) (ids : List Nat) :
    ∀ (ps : List FamilyPair) (seen : List Nat),
    ps.map pairKey = firstKeys (seen.map (keyOf reg)) →
    (∀ p ∈ ps, p.children = seen.filter (fun i => decide (keyOf reg i = pairKey p))) →
    (ids.foldl (fun a i => addToPairs a (fatherOf reg i) (motherOf reg i) i) ps).map pairKey
        = firstKeys ((seen ++ ids).map (keyOf reg)) ∧
    ∀ p ∈ ids.foldl (fun a i => addToPairs a (fatherOf reg i) (motherOf reg i) i) ps,
      p.children = (seen ++ ids).filter (fun i => decide (keyOf reg i = pairKey p)) := by
  induction ids with
  | nil =>
    intro ps seen h1 h2
    simpa using ⟨h1, h2⟩
  | cons c cs ih =>
    intro ps seen h1 h2
    rw [List.foldl_cons]
    have hd := ih (addToPairs ps (fatherOf reg c) (motherOf reg c) c) (seen ++ [c])
      (addToPairs_step_keys reg ps seen c h1)
      (addToPairs_step_children reg ps seen c h1 h2)
    rw [List.append_assoc] at hd
    simpa using hd

theorem buildPairs_spec (reg : List Member) (ids : List Nat) :
    (buildFamilyPairsForMembers reg ids).map pairKey = firstKeys (ids.map (keyOf reg)) ∧
    ∀ p ∈ buildFamilyPairsForMembers reg ids,
      p.children = ids.filter (fun i => decide (keyOf reg i = pairKey p)) := by
  have hb := buildPairs_invariant reg ids [] []
    (by simp [firstKeys, dedupAppend]) (by simp)
  simpa [buildFamilyPairsForMembers] using hb

/-! ### Helper lemmas on the generation walk -/

theorem mem_allChildren_addToPairs (ps : List FamilyPair) (f m : Option Nat)
    (c : Nat) (x : Nat) :
    x ∈ allChildren (addToPairs ps f m c) ↔ x ∈ allChildren ps ∨ x = c := by
  induction ps with
  | nil => simp [addToPairs, allChildren]
  | cons p rest ih =>
    by_cases hp : p.father = f ∧ p.mother = m
    · simp only [addToPairs, if_pos hp, allChildren, List.mem_append, List.mem_singleton]
      tauto
    · simp only [addToPairs, if_neg hp, allChildren, List.mem_append, ih]
      tauto

theorem mem_allChildren_groupFold (reg : List Member) (l : List Nat)
    (a : List FamilyPair) (x : Nat) :
    x ∈ allChildren (l.foldl
        (fun ps c => addToPairs ps (fatherOf reg c) (motherOf reg c) c) a) ↔
      x ∈ allChildren a ∨ x ∈ l := by
  induction l generalizing a with
  | nil => simp
  | cons c cs ih =>
    rw [List.foldl_cons, ih, mem_allChildren_addToPairs]
    simp only [List.mem_cons]
    tauto

theorem mem_allChildren_expandParent (reg : List Member) (a : List FamilyPair)
    (i : Nat) (x : Nat) :
    x ∈ allChildren (expandParent reg a i) ↔
      x ∈ allChildren a ∨ x ∈ childrenOf reg i := by
  unfold expandParent
  by_cases hc : childrenOf reg i = []
  · rw [if_pos hc, hc]
    simp
  · rw [if_neg hc, mem_allChildren_groupFold]

theorem mem_allChildren_nextGen (reg : List Member) (gen : List FamilyPair)
    (x : Nat) :
    x ∈ allChildren (nextGenOf reg gen) ↔
      ∃ p ∈ collectChildren gen, x ∈ childrenOf reg p := by
  unfold nextGenOf
  have haux : ∀ (l : List Nat) (a : List FamilyPair),
      x ∈ allChildren (l.foldl (expandParent reg) a) ↔
        x ∈ allChildren a ∨ ∃ p ∈ l, x ∈ childrenOf reg p := by
    intro l
    induction l with
    | nil => simp
    | cons c cs ih =>
      intro a
      rw [List.foldl_cons, ih, mem_allChildren_expandParent]
      simp only [List.mem_cons]
      constructor
      · rintro ((h | h) | ⟨p, hp, hx⟩)
        · exact Or.inl h
        · exact Or.inr ⟨c, Or.inl rfl, h⟩
        · exact Or.inr ⟨p, Or.inr hp, hx⟩
      · rintro (h | ⟨p, (rfl | hp), hx⟩)
        · exact Or.inl (Or.inl h)
        · exact Or.inl (Or.inr hx)
        · exact Or.inr ⟨p, hp, hx⟩
  rw [haux]
  simp [allChildren]

theorem mem_collectChildren (gen : List FamilyPair) (x : Nat) :
    x ∈ collectChildren gen ↔ x ∈ allChildren gen := by
  unfold collectChildren
  have haux : ∀ (l : List FamilyPair) (acc : List Nat),
      x ∈ l.foldl (fun a p => dedupAppend a p.children) acc ↔
        x ∈ acc ∨ x ∈ allChildren l := by
    intro l
    induction l with
    | nil => simp [allChildren]
    | cons p rest ih =>
      intro acc
      rw [List.foldl_cons, ih, mem_dedupAppend]
      simp only [allChildren, List.mem_append]
      tauto
  rw [haux]
  simp

theorem nodup_collectChildren (gen : List FamilyPair) :
    (collectChildren gen).Nodup := by
  unfold collectChildren
  have haux : ∀ (l : List FamilyPair) (acc : List Nat), acc.Nodup →
      (l.foldl (fun a p => dedupAppend a p.children) acc).Nodup := by
    intro l
    induction l with
    | nil => exact fun acc h => h
    | cons p rest ih =>
      intro acc hacc
      rw [List.foldl_cons]
      exact ih _ (nodup_dedupAppend _ _ hacc)
  exact haux gen [] List.nodup_nil

theorem children_ne_nil_addToPairs (ps : List FamilyPair) (f m : Option Nat)
    (c : Nat) (h : ∀ p ∈ ps, p.children ≠ [])
    (q : FamilyPair) (hq : q ∈ addToPairs ps f m c) : q.children ≠ [] := by
  induction ps with
  | nil =>
    simp only [addToPairs, List.mem_singleton] at hq
    subst hq
    simp
  | cons p rest ih =>
    by_cases hp : p.father = f ∧ p.mother = m
    · simp only [addToPairs, if_pos hp, List.mem_cons] at hq
      rcases hq with hq | hq
      · subst hq
        simp
      · exact h q (List.mem_cons_of_mem _ hq)
    · simp only [addToPairs, if_neg hp, List.mem_cons] at hq
      rcases hq with hq | hq
      · subst hq
        exact h q (List.mem_cons_self _ _)
      · exact ih (fun p' hp' => h p' (List.mem_cons_of_mem _ hp')) hq

theorem children_ne_nil_nextGen (reg : List Member) (gen : List FamilyPair)
    (q : FamilyPair) (hq : q ∈ nextGenOf reg gen) : q.children ≠ [] := by
  unfold nextGenOf at hq
  have haux : ∀ (l : List Nat) (a : List FamilyPair),
      (∀ p ∈ a, p.children ≠ []) →
      ∀ q ∈ l.foldl (expandParent reg) a, q.children ≠ [] := by
    intro l
    induction l with
    | nil => exact fun a h q hq => h q hq
    | cons c cs ih =>
      intro a ha q hq
      rw [List.foldl_cons] at hq
      refine ih _ ?_ q hq
      intro p hp
      unfold expandParent at hp
      by_cases hc : childrenOf reg c = []
      · rw [if_pos hc] at hp
        exact ha p hp
      · rw [if_neg hc] at hp
        have haux2 : ∀ (ll : List Nat) (aa : List FamilyPair),
            (∀ r ∈ aa, r.children ≠ []) →
            ∀ r ∈ ll.foldl
              (fun ps cc => addToPairs ps (fatherOf reg cc) (motherOf reg cc) cc) aa,
              r.children ≠ [] := by
          intro ll
          induction ll with
          | nil => exact fun aa h r hr => h r hr
          | cons d ds ihd =>
            intro aa haa r hr
            rw [List.foldl_cons] at hr
            exact ihd _ (fun s hs => children_ne_nil_addToPairs aa _ _ d haa s hs) r hr
        exact haux2 _ _ ha p hp
  exact haux _ _ (by simp) q hq

theorem mem_allChildren_of_mem (gen : List FamilyPair) (q : FamilyPair)
    (hq : q ∈ gen) (c : Nat) (hc : c ∈ q.children) : c ∈ allChildren gen := by
  induction gen with
  | nil => cases hq
  | cons p rest ih =>
    rw [allChildren, List.mem_append]
    rcases List.mem_cons.mp hq with rfl | h1
    · exact Or.inl hc
    · exact Or.inr (ih h1)

theorem le_listMax (l : List Nat) (x : Nat) (h : x ∈ l) : x ≤ listMax l := by
  induction l with
  | nil => cases h
  | cons a as ih =>
    rw [listMax]
    rcases List.mem_cons.mp h with rfl | h1
    · exact Nat.le_max_left _ _
    · exact le_trans (ih h1) (Nat.le_max_right _ _)

theorem listMax_lt (l : List Nat) (b : Nat) (hne : l ≠ []) (h : ∀ x ∈ l, x < b) :
    listMax l < b := by
  induction l with
  | nil => cases hne rfl
  | cons a as ih =>
    rw [listMax]
    have ha : a < b := h a (List.mem_cons_self _ _)
    rcases eq_or_ne as [] with rfl | has
    · simpa [listMax] using ha
    · exact max_lt ha (ih has (fun x hx => h x (List.mem_cons_of_mem _ hx)))

theorem walk_reaches_nil (reg : List Member) (h : Nat → Nat)
    (hr : ∀ i j, j ∈ childrenOf reg i → h j < h i) :
    ∀ (N : Nat) (gen : List FamilyPair),
      listMax ((allChildren gen).map h) < N →
      ∃ n, (nextGenOf reg)^[n] gen = [] := by
  intro N
  induction N with
  | zero => exact fun gen hm => absurd hm (Nat.not_lt_zero _)
  | succ N ih =>
    intro gen hm
    rcases eq_or_ne gen [] with rfl | hgen
    · exact ⟨0, rfl⟩
    rcases eq_or_ne (nextGenOf reg gen) [] with hnil | hne
    · exact ⟨1, by simpa using hnil⟩
    · have hlt : listMax ((allChildren (nextGenOf reg gen)).map h) < N := by
        apply listMax_lt
        · rcases List.exists_mem_of_ne_nil _ hne with ⟨q, hq⟩
          have hqc := children_ne_nil_nextGen reg gen q hq
          rcases List.exists_mem_of_ne_nil _ hqc with ⟨c, hc⟩
          have hcall : c ∈ allChildren (nextGenOf reg gen) :=
            mem_allChildren_of_mem _ q hq c hc
          intro hmapnil
          rw [List.map_eq_nil_iff] at hmapnil
          rw [hmapnil] at hcall
          cases hcall
        · intro y hy
          rcases List.mem_map.mp hy with ⟨x, hx, rfl⟩
          rcases (mem_allChildren_nextGen reg gen x).mp hx with ⟨p, hp, hxc⟩
          have hpx : h x < h p := hr p x hxc
          have hpmem : p ∈ allChildren gen := (mem_collectChildren gen p).mp hp
          have hple : h p ≤ listMax ((allChildren gen).map h) :=
            le_listMax _ _ (List.mem_map_of_mem h hpmem)
          omega
      rcases ih (nextGenOf reg gen) hlt with ⟨n, hn⟩
      refine ⟨n + 1, ?_⟩
      rw [Function.iterate_succ_apply]
      exact hn

theorem walk_terminates (reg : List Member) (h : Nat → Nat)
    (hr : ∀ i j, j ∈ childrenOf reg i → h j < h i) (gen : List FamilyPair) :
    ∃ n, (nextGenOf reg)^[n] gen = [] :=
  walk_reaches_nil reg h hr (listMax ((allChildren gen).map h) + 1) gen
    (Nat.lt_succ_self _)

/-! ### Helper lemmas on the layout functions -/

theorem take_full {α : Type} (l : List α) (n : Nat) (h : l.length ≤ n) :
    l.take n = l := by
  induction l generalizing n with
  | nil => simp
  | cons a as ih =>
    cases n with
    | zero => simp at h
    | succ n =>
      rw [List.take_succ_cons, ih n (by simpa using h)]

theorem take_min_eq (cn : List Char) (a : Nat)
    (h : (cn.take MAX_NAME).length ≤ a) :
    cn.take (min MAX_NAME a) = cn.take MAX_NAME := by
  rw [List.length_take] at h
  rcases le_or_lt MAX_NAME a with hle | hlt
  · rw [min_eq_left hle]
  · have hcn : cn.length ≤ a := by
      rcases le_or_lt cn.length MAX_NAME with h1 | h1
      · rwa [min_eq_right h1] at h
      · rw [min_eq_left (le_of_lt h1)] at h
        omega
    rw [min_eq_right (le_of_lt hlt), take_full _ _ hcn,
      take_full _ _ (le_trans hcn (le_of_lt hlt))]

theorem parentLineRaw_eq_spec (fn mn : List Char) (fg mg : Char) :
    parentLineRaw fn mn fg mg = parentLineSpec fn mn fg mg := by
  have h0 : (fn.take MAX_NAME).length ≤ 15 := by
    rw [List.length_take, MAX_NAME]
    exact Nat.min_le_left _ _
  have h0m : (mn.take MAX_NAME).length ≤ 15 := by
    rw [List.length_take, MAX_NAME]
    exact Nat.min_le_left _ _
  simp only [parentLineRaw]
  rw [take_full (fn.take MAX_NAME) 255 (le_trans h0 (by norm_num))]
  rw [if_pos (lt_of_le_of_lt h0 (by norm_num))]
  rw [if_pos (show (fn.take MAX_NAME ++ [' ', '(', fg, ')']).length < 255 by
    rw [List.length_append]
    simp only [List.length_cons, List.length_nil]
    omega)]
  rw [take_full (mn.take MAX_NAME) _ (by
    rw [List.length_append, List.length_append]
    simp only [List.length_cons, List.length_nil]
    omega)]
  rw [if_pos (by
    rw [List.length_append, List.length_append, List.length_append]
    simp only [List.length_cons, List.length_nil]
    omega)]
  simp [parentLineSpec]

theorem childrenLineGo_eq_spec (names : List (List Char)) :
    ∀ p : Nat, p + (childrenLineSpec names).length ≤ 255 →
      childrenLineGo names p = childrenLineSpec names := by
  induction names with
  | nil =>
    intro p _
    rfl
  | cons cn rest ih =>
    intro p hp
    rcases eq_or_ne rest [] with rfl | hrest
    · have hspec : childrenLineSpec [cn] = cn.take MAX_NAME := rfl
      have hgo : childrenLineGo [cn] p = cn.take (min MAX_NAME (255 - p)) := rfl
      rw [hspec] at hp
      rw [hgo, hspec]
      exact take_min_eq cn (255 - p) (by omega)
    · simp only [childrenLineSpec, if_neg hrest, List.length_append,
        List.length_cons] at hp
      simp only [childrenLineGo, childrenLineSpec, if_neg hrest]
      have hw : cn.take (min MAX_NAME (255 - p)) = cn.take MAX_NAME :=
        take_min_eq cn (255 - p) (by omega)
      rw [hw]
      rw [if_pos (by omega)]
      rw [ih (p + (cn.take MAX_NAME).length + 1) (by omega)]

theorem padCenter_length (w : Nat) (t : List Char) (h : t.length ≤ w) :
    (padCenter w t).length = w := by
  unfold padCenter
  simp only [List.length_append, List.length_replicate]
  omega

theorem widthOf_eq_max (reg : List Member) (p : FamilyPair) :
    widthOf reg p =
      max (max (parentLine reg p).length (childrenLine reg p).length) 6 := by
  simp only [widthOf]
  split_ifs <;> omega

/-! ### Helper lemmas on the tree-state operations -/

theorem regModify_length (reg : List Member) (i : Nat) (f : Member → Member) :
    (regModify reg i f).length = reg.length := by
  unfold regModify
  cases h : reg[i]? with
  | none => rfl
  | some m => simp

theorem regModify_getElem_ne (reg : List Member) (i : Nat) (f : Member → Member)
    (j : Nat) (hne : i ≠ j) : (regModify reg i f)[j]? = reg[j]? := by
  unfold regModify
  cases h : reg[i]? with
  | none => rfl
  | some m => exact List.getElem?_set_ne hne

theorem regModify_getElem_self (reg : List Member) (i : Nat) (f : Member → Member)
    (m : Member) (h : reg[i]? = some m) : (regModify reg i f)[i]? = some (f m) := by
  unfold regModify
  rw [h]
  exact List.getElem?_set_self (by
    rcases List.getElem?_eq_some_iff.mp h with ⟨hlt, _⟩
    exact hlt)

/-- Gender invariant: every member of the pool carries a normalized gender. -/
def genderOK (reg : List Member) : Prop :=
  ∀ m ∈ reg, m.gender = 'M' ∨ m.gender = 'F'

theorem mkMember_gender (n : List Char) (g : Char) (a : Bool) :
    (mkMember n g a).gender = 'M' ∨ (mkMember n g a).gender = 'F' := by
  unfold mkMember
  by_cases hg : g = 'M' ∨ g = 'm'
  · left
    simp [hg]
  · right
    simp [hg]

theorem genderOK_append (reg : List Member) (x : Member) (h : genderOK reg)
    (hx : x.gender = 'M' ∨ x.gender = 'F') : genderOK (reg ++ [x]) := by
  intro m hm
  rcases List.mem_append.mp hm with h1 | h1
  · exact h m h1
  · rw [List.mem_singleton.mp h1]
    exact hx

theorem genderOK_regModify (reg : List Member) (i : Nat) (f : Member → Member)
    (hf : ∀ m, (f m).gender = m.gender) (h : genderOK reg) :
    genderOK (regModify reg i f) := by
  unfold regModify
  cases hg : reg[i]? with
  | none => exact h
  | some m =>
    intro x hx
    rcases List.mem_or_eq_of_mem_set hx with h1 | h1
    · exact h x h1
    · rw [h1, hf m]
      exact h m (by
        rcases List.getElem?_eq_some_iff.mp hg with ⟨hlt, hval⟩
        rw [← hval]
        exact List.getElem_mem hlt)

theorem genderOK_resolveParent (st : TreeState) (root : Nat) (ps : ParentSpec)
    (h : genderOK st.reg) : genderOK (resolveParent st root ps).2.reg := by
  cases ps with
  | unspecified => exact h
  | lookup n => exact h
  | createIfMissing n g a =>
    unfold resolveParent
    dsimp only
    cases hf : findByName st.reg n with
    | some i => exact h
    | none =>
      dsimp only
      exact genderOK_regModify _ _ _ (fun m => rfl)
        (genderOK_append _ _ h (mkMember_gender n g a))

theorem genderOK_createRoot (st : TreeState) (n : List Char) (g : Char) (a : Bool)
    (h : genderOK st.reg) : genderOK (createRoot st n g a).reg := by
  unfold createRoot
  cases st.root with
  | some r => exact h
  | none =>
    by_cases hn : n = []
    · rw [if_pos hn]
      exact h
    · rw [if_neg hn]
      exact genderOK_append _ _ h (mkMember_gender n g a)

theorem genderOK_addMember (st : TreeState) (n : List Char) (g : Char) (a : Bool)
    (fs ms : ParentSpec) (h : genderOK st.reg) :
    genderOK (addMember st n g a fs ms).reg := by
  unfold addMember
  cases hr : st.root with
  | none => exact h
  | some root =>
    dsimp only
    by_cases hn : n = []
    · rw [if_pos hn]
      exact h
    · rw [if_neg hn]
      by_cases hf : (findByName st.reg n).isSome
      · rw [if_pos hf]
        exact h
      · rw [if_neg hf]
        dsimp only
        have hbase : genderOK ((resolveParent (resolveParent st root fs).2 root ms).2.reg ++
            [{ mkMember n g a with
                father := (resolveParent st root fs).1,
                mother := (resolveParent (resolveParent st root fs).2 root ms).1 }]) :=
          genderOK_append _ _
            (genderOK_resolveParent _ root ms (genderOK_resolveParent st root fs h))
            (mkMember_gender n g a)
        cases hfo : (resolveParent st root fs).1 with
        | some fi =>
          rw [hfo] at hbase
          cases hmo : (resolveParent (resolveParent st root fs).2 root ms).1 with
          | some mi =>
            rw [hmo] at hbase
            dsimp only
            rw [if_neg (by simp)]
            exact genderOK_regModify _ _ _ (fun m => rfl) hbase
          | none =>
            rw [hmo] at hbase
            dsimp only
            rw [if_neg (by simp)]
            exact genderOK_regModify _ _ _ (fun m => rfl) hbase
        | none =>
          rw [hfo] at hbase
          cases hmo : (resolveParent (resolveParent st root fs).2 root ms).1 with
          | some mi =>
            rw [hmo] at hbase
            dsimp only
            rw [if_neg (by simp)]
            exact genderOK_regModify _ _ _ (fun m => rfl) hbase
          | none =>
            rw [hmo] at hbase
            dsimp only
            rw [if_pos ⟨rfl, rfl⟩]
            exact genderOK_regModify _ _ _ (fun m => rfl) hbase

theorem genderOK_markLate (st : TreeState) (n : List Char) (c : Bool)
    (h : genderOK st.reg) : genderOK (markLate st n c).reg := by
  unfold markLate
  cases hr : st.root with
  | none => exact h
  | some r =>
    dsimp only
    by_cases hn : n = []
    · rw [if_pos hn]
      exact h
    · rw [if_neg hn]
      cases hf : findByName st.reg n with
      | none => exact h
      | some i =>
        dsimp only
        cases hg : st.reg[i]? with
        | none => exact h
        | some m =>
          dsimp only
          by_cases ha : m.alive = false
          · rw [if_pos ha]
            exact h
          · rw [if_neg ha]
            by_cases hc : c = true
            · rw [if_pos hc]
              intro x hx
              rcases List.mem_or_eq_of_mem_set hx with h1 | h1
              · exact h x h1
              · rw [h1]
                refine h m ?_
                rcases List.getElem?_eq_some_iff.mp hg with ⟨hlt, hval⟩
                rw [← hval]
                exact List.getElem_mem hlt
            · rw [if_neg hc]
              exact h

theorem reachable_genderOK (st : TreeState) (h : Reachable st) : genderOK st.reg := by
  induction h with
  | start => intro m hm; cases hm
  | step_root st n g a _ ih => exact genderOK_createRoot st n g a ih
  | step_add st n g a fs ms _ ih => exact genderOK_addMember st n g a fs ms ih
  | step_late st n c _ ih => exact genderOK_markLate st n c ih

theorem foldl_filter_decide {α β : Type} (p : α → Prop) [DecidablePred p]
    (f : β → α → β) (l : List α) (b : β) :
    (l.filter (fun a => decide (p a))).foldl f b =
      l.foldl (fun acc a => if p a then f acc a else acc) b := by
  induction l generalizing b with
  | nil => rfl
  | cons x xs ih =>
    by_cases hx : p x
    · rw [List.filter_cons, if_pos (by simpa using hx), List.foldl_cons,
        List.foldl_cons, if_pos hx, ih]
    · rw [List.filter_cons, if_neg (by simpa using hx), List.foldl_cons,
        if_neg hx, ih]

theorem mem_buildPairs_key (reg : List Member) (ids : List Nat) (p : FamilyPair)
    (hp : p ∈ buildFamilyPairsForMembers reg ids) (i : Nat) (hi : i ∈ p.children) :
    pairKey p = keyOf reg i := by
  have h2 := (buildPairs_spec reg ids).2 p hp
  rw [h2] at hi
  have h3 := List.of_mem_filter hi
  have h4 : keyOf reg i = pairKey p := by simpa using h3
  exact h4.symm

theorem addMember_noParents (st : TreeState) (root : Nat) (n : List Char)
    (g : Char) (a : Bool) (hroot : st.root = some root) (hn : n ≠ [])
    (hf : findByName st.reg n = none) :
    addMember st n g a ParentSpec.unspecified ParentSpec.unspecified =
      { st with
          reg := regModify
            (st.reg ++ [{ mkMember n g a with father := none, mother := none }])
            root (addChildTo st.reg.length) } := by
  unfold addMember
  rw [hroot]
  dsimp only
  rw [if_neg hn, hf]
  rw [if_neg (by simp)]
  dsimp only [resolveParent]
  rw [if_pos ⟨rfl, rfl⟩, hroot]

theorem reg3_rank : ∀ i j, j ∈ childrenOf reg3 i → 3 - j < 3 - i := by
  intro i j hj
  match i with
  | 0 =>
    have h0 : childrenOf reg3 0 = [1] := rfl
    rw [h0] at hj
    rcases List.mem_singleton.mp hj with rfl
    decide
  | 1 =>
    have h1 : childrenOf reg3 1 = [2] := rfl
    rw [h1] at hj
    rcases List.mem_singleton.mp hj with rfl
    decide
  | 2 =>
    have h2 : childrenOf reg3 2 = [] := rfl
    rw [h2] at hj
    cases hj
  | (k + 3) =>
    rw [childrenOf_of_le reg3 (k + 3) (by
      have h3 : reg3.length = 3 := rfl
      omega)] at hj
    cases hj

/-! ### Claim theorems -/

/-- C1: grouping an ordered sequence of individuals into family units visits
them in order, keys each one by its (father, mother) reference pair, appends
to the unit already holding that exact key or else appends a fresh unit at
the end; hence the units' keys are the input keys in first-encounter order,
and each unit's children are exactly the input members carrying its key, in
encounter order — deterministically. -/
theorem C1_grouping_deterministic (reg : List Member) (ids : List Nat) :
    (buildFamilyPairsForMembers reg ids).map pairKey =
        firstKeys (ids.map (keyOf reg)) ∧
    ∀ p ∈ buildFamilyPairsForMembers reg ids,
      p.children = ids.filter (fun i => decide (keyOf reg i = pairKey p)) :=
  buildPairs_spec reg ids

/-- C1 witness: the grouping of members 1 and 2 of the concrete registry. -/
theorem C1_grouping_deterministic_witness :
    (buildFamilyPairsForMembers reg3 [1, 2]).map pairKey =
        firstKeys ([1, 2].map (keyOf reg3)) ∧
    (⟨some 0, none, [1]⟩ : FamilyPair).children =
      [1, 2].filter
        (fun i => decide (keyOf reg3 i = pairKey ⟨some 0, none, [1]⟩)) :=
  ⟨(C1_grouping_deterministic reg3 [1, 2]).1,
   (C1_grouping_deterministic reg3 [1, 2]).2 ⟨some 0, none, [1]⟩ (by decide)⟩

/-- C2: generation 0 is exactly the grouping, by (father, mother) reference
key, of those pool members whose father or mother is the root, plus the root
itself when both its parent references are absent. -/
theorem C2_gen0_seed (reg : List Member) (root : Nat) :
    gen0 reg root = buildFamilyPairsForMembers reg
      ((List.range reg.length).filter (fun i => decide (seedPred reg root i))) := by
  unfold gen0 buildFamilyPairsForMembers
  exact (foldl_filter_decide (seedPred reg root) _ _ _).symm

/-- C5: a unit's display width equals max(parent-line length, children-line
length, 6), and both centered rows emitted for the unit have length exactly
that width (the padding split is the floor-halved one in `padCenter`). -/
theorem C5_width_centering (reg : List Member) (p : FamilyPair) :
    widthOf reg p =
        max (max (parentLine reg p).length (childrenLine reg p).length) 6 ∧
    (padCenter (widthOf reg p) (parentLine reg p)).length = widthOf reg p ∧
    (padCenter (widthOf reg p) (childrenLine reg p)).length = widthOf reg p := by
  refine ⟨widthOf_eq_max reg p, ?_, ?_⟩
  · apply padCenter_length
    rw [widthOf_eq_max]
    exact le_trans (le_max_left _ _) (le_max_left _ _)
  · apply padCenter_length
    rw [widthOf_eq_max]
    exact le_trans (le_max_right _ _) (le_max_left _ _)

/-- C9: the constructor stores 'M' exactly for gender arguments 'M' and 'm'
and 'F' for every other character, and in every reachable program state
every pooled member's stored gender is 'M' or 'F'. -/
theorem C9_gender_normalized (n : List Char) (g : Char) (a : Bool)
    (st : TreeState) (i : Nat) (m : Member) :
    (mkMember n g a).gender = (if g = 'M' ∨ g = 'm' then 'M' else 'F') ∧
    (Reachable st → st.reg[i]? = some m →
      m.gender = 'M' ∨ m.gender = 'F') := by
  refine ⟨rfl, fun hr hg => ?_⟩
  refine reachable_genderOK st hr m ?_
  rcases List.getElem?_eq_some_iff.mp hg with ⟨hlt, hval⟩
  rw [← hval]
  exact List.getElem_mem hlt

/-- C9 witness: an invalid gender letter is stored as 'F', and the state
reached by creating that root satisfies the invariant at index 0. -/
theorem C9_gender_normalized_witness :
    (mkMember ['r'] 'x' true).gender =
        (if ('x' = 'M' ∨ 'x' = 'm') then 'M' else 'F') ∧
    Reachable demoState ∧
    (demoMember.gender = 'M' ∨ demoMember.gender = 'F') := by
  have hreach : Reachable demoState :=
    Reachable.step_root ⟨none, []⟩ ['r'] 'x' true Reachable.start
  exact ⟨(C9_gender_normalized ['r'] 'x' true demoState 0 demoMember).1, hreach,
    (C9_gender_normalized ['r'] 'x' true demoState 0 demoMember).2 hreach (by decide)⟩

/-- C10: getChild is total over all integer indices: in range it returns the
i-th child of the unit (always a member, never an invalid access), and any
negative or too-large index yields none. -/
theorem C10_getChild_total (p : FamilyPair) (i : Int) :
    (0 ≤ i → i < (p.children.length : Int) →
      getChild p i = p.children[i.toNat]? ∧ (getChild p i).isSome = true) ∧
    (i < 0 ∨ (p.children.length : Int) ≤ i → getChild p i = none) := by
  constructor
  · intro h1 h2
    unfold getChild
    rw [if_pos ⟨h1, h2⟩]
    refine ⟨rfl, ?_⟩
    have hlt : i.toNat < p.children.length := by omega
    rw [List.getElem?_eq_getElem hlt]
    rfl
  · intro h
    unfold getChild
    rw [if_neg ?_]
    rintro ⟨ha, hb⟩
    omega

/-- C10 witness: on a two-child unit, index 1 yields the second child while
indices -1 and 2 yield none. -/
theorem C10_getChild_total_witness :
    getChild demoPair 1 = some 7 ∧ getChild demoPair (-1) = none ∧
      getChild demoPair 2 = none :=
  ⟨(((C10_getChild_total demoPair 1).1 (by decide) (by decide)).1).trans (by decide),
   (C10_getChild_total demoPair (-1)).2 (Or.inl (by decide)),
   (C10_getChild_total demoPair 2).2 (Or.inr (by decide))⟩

/-- C3 counterexample: in the one-member registry the spec's condition for
"generation 0 would be empty" holds — no individual references the root as a
parent and the root has no recorded parents — yet generation 0 is not empty:
the root itself seeds it (line 481 of the source). -/
theorem C3_counterexample : specEmptyCond reg1 0 ∧ gen0 reg1 0 ≠ [] := by
  refine ⟨⟨?_, by decide, by decide⟩, by decide⟩
  intro i
  match i with
  | 0 => exact ⟨by decide, by decide⟩
  | (j + 1) =>
    have hlen : reg1.length = 1 := rfl
    constructor
    · rw [fatherOf_of_le reg1 (j + 1) (by omega)]
      simp
    · rw [motherOf_of_le reg1 (j + 1) (by omega)]
      simp

/-- C3 (amended): whenever generation 0 is actually empty, showing the tree
starts from the synthesized single unit with no father and no mother whose
sole child is the root, and the initial generation is never empty when a
root exists. (Under the spec's stated condition generation 0 is itself
already that single unit, so the fallback never fires there.) -/
theorem C3_fallback (reg : List Member) (root : Nat) :
    (gen0 reg root = [] → initialGen reg root = [⟨none, none, [root]⟩]) ∧
    initialGen reg root ≠ [] := by
  constructor
  · intro h
    unfold initialGen
    rw [h]
  · unfold initialGen
    cases h : gen0 reg root with
    | nil => simp
    | cons p rest => simp

/-- C3 witness: on the empty registry generation 0 is empty and the fallback
unit appears; on the one-member registry the initial generation is nonempty. -/
theorem C3_fallback_witness :
    gen0 ([] : List Member) 0 = [] ∧
    initialGen ([] : List Member) 0 = [⟨none, none, [0]⟩] ∧
    initialGen reg1 0 ≠ [] :=
  ⟨by decide, (C3_fallback [] 0).1 (by decide), (C3_fallback reg1 0).2⟩

set_option maxRecDepth 100000 in
/-- C6 counterexample: a unit with seventeen 15-character names exhausts the
256-byte children-line buffer; the last name (15 characters, nonempty)
contributes nothing, so the emitted line differs from the spec's join of
first-15-character truncations. -/
theorem C6_counterexample :
    (nameOf reg17 16).length = 15 ∧
    childrenLine reg17 pair17 ≠
      childrenLineSpec (pair17.children.map (nameOf reg17)) := by
  constructor
  · decide
  · intro h
    have hlen := congrArg List.length h
    revert hlen
    decide

/-- C6 (amended): display truncation keeps at most 15 characters with no
marker — a longer name yields exactly its first 15 characters and a name of
at most 15 characters is unchanged; the parent line always renders both
names this way, and the children line does so whenever the joined line fits
within the 255 characters the output buffer can hold. -/
theorem C6_truncation (s fn mn : List Char) (fg mg : Char)
    (names : List (List Char)) :
    (15 < s.length → (truncName s).length = 15 ∧ truncName s ++ s.drop 15 = s) ∧
    (s.length ≤ 15 → truncName s = s) ∧
    parentLineRaw fn mn fg mg = parentLineSpec fn mn fg mg ∧
    ((childrenLineSpec names).length ≤ 255 →
      childrenLineGo names 0 = childrenLineSpec names) := by
  refine ⟨fun h => ⟨?_, ?_⟩, fun h => ?_, parentLineRaw_eq_spec fn mn fg mg,
    fun h => ?_⟩
  · simp only [truncName, List.length_take, MAX_NAME]
    omega
  · exact List.take_append_drop 15 s
  · exact take_full s MAX_NAME h
  · exact childrenLineGo_eq_spec names 0 (by omega)

/-- C6 witness: a 16-character name truncates to 15 characters, a short name
is unchanged, and a short children line equals the spec's join. -/
theorem C6_truncation_witness :
    (truncName longName).length = 15 ∧
    truncName ['a', 'b'] = ['a', 'b'] ∧
    childrenLineGo [['a'], ['b']] 0 = childrenLineSpec [['a'], ['b']] :=
  ⟨((C6_truncation longName [] [] 'M' 'F' []).1 (by decide)).1,
   (C6_truncation ['a', 'b'] [] [] 'M' 'F' []).2.1 (by decide),
   (C6_truncation [] [] [] 'M' 'F' [['a'], ['b']]).2.2.2 (by decide)⟩

/-- C7: adding a member without specifying parents appends it to the pool
with absent father and mother references and links it into the root's
firstChild/nextSibling chain; consequently every grouping pass that meets it
files it under the (no-father, no-mother) key. -/
theorem C7_no_parent_add (st : TreeState) (root : Nat) (n : List Char)
    (g : Char) (a : Bool) (hroot : st.root = some root) (hn : n ≠ [])
    (hf : findByName st.reg n = none) (hlt : root < st.reg.length) :
    fatherOf (addMember st n g a ParentSpec.unspecified ParentSpec.unspecified).reg
        st.reg.length = none ∧
    motherOf (addMember st n g a ParentSpec.unspecified ParentSpec.unspecified).reg
        st.reg.length = none ∧
    st.reg.length ∈ childrenOf
        (addMember st n g a ParentSpec.unspecified ParentSpec.unspecified).reg root ∧
    ∀ (ids : List Nat) (p : FamilyPair),
      p ∈ buildFamilyPairsForMembers
        (addMember st n g a ParentSpec.unspecified ParentSpec.unspecified).reg ids →
      st.reg.length ∈ p.children → p.father = none ∧ p.mother = none := by
  have hshape := addMember_noParents st root n g a hroot hn hf
  have hne : root ≠ st.reg.length := Nat.ne_of_lt hlt
  have hget : (addMember st n g a ParentSpec.unspecified ParentSpec.unspecified).reg[st.reg.length]? =
      some { mkMember n g a with father := none, mother := none } := by
    rw [hshape]
    dsimp only
    rw [regModify_getElem_ne _ _ _ _ hne]
    exact List.getElem?_concat_length _ _
  have hfn : fatherOf (addMember st n g a ParentSpec.unspecified ParentSpec.unspecified).reg
      st.reg.length = none := by
    unfold fatherOf
    rw [hget]
  have hmn : motherOf (addMember st n g a ParentSpec.unspecified ParentSpec.unspecified).reg
      st.reg.length = none := by
    unfold motherOf
    rw [hget]
  refine ⟨hfn, hmn, ?_, ?_⟩
  · cases hg : st.reg[root]? with
    | none =>
      rw [List.getElem?_eq_none_iff] at hg
      omega
    | some mroot =>
      have hgr : (addMember st n g a ParentSpec.unspecified ParentSpec.unspecified).reg[root]? =
          some (addChildTo st.reg.length mroot) := by
        rw [hshape]
        dsimp only
        apply regModify_getElem_self
        rw [List.getElem?_append_left hlt]
        exact hg
      unfold childrenOf
      rw [hgr]
      unfold addChildTo
      simp
  · intro ids p hp hi
    have hk := mem_buildPairs_key _ ids p hp st.reg.length hi
    have hkey : keyOf (addMember st n g a ParentSpec.unspecified ParentSpec.unspecified).reg
        st.reg.length = (none, none) := by
      unfold keyOf
      rw [hfn, hmn]
    rw [hkey] at hk
    exact ⟨congrArg Prod.fst hk, congrArg Prod.snd hk⟩

/-- C7 witness: adding "b" with no parents to the one-member root state. -/
theorem C7_no_parent_add_witness :
    fatherOf (addMember demoState ['b'] 'M' true
        ParentSpec.unspecified ParentSpec.unspecified).reg 1 = none ∧
    1 ∈ childrenOf (addMember demoState ['b'] 'M' true
        ParentSpec.unspecified ParentSpec.unspecified).reg 0 ∧
    ((⟨none, none, [1]⟩ : FamilyPair).father = none ∧
      (⟨none, none, [1]⟩ : FamilyPair).mother = none) := by
  have h := C7_no_parent_add demoState 0 ['b'] 'M' true (by decide) (by decide)
    (by decide) (by decide)
  exact ⟨h.1, h.2.2.1, h.2.2.2 [1] ⟨none, none, [1]⟩ (by decide) (by decide)⟩

/-- C8: marking a member late flips only that member's alive flag, and only
when the member is found, currently alive, and the confirmation is answered
yes; an already-late member leaves the state unchanged, and a failed name
lookup aborts with no side effects on any member. -/
theorem C8_markLate (st : TreeState) (r : Nat) (n : List Char) (c : Bool)
    (hroot : st.root = some r) (hn : n ≠ []) :
    (findByName st.reg n = none → markLate st n c = st) ∧
    (∀ i m, findByName st.reg n = some i → st.reg[i]? = some m →
      m.alive = false → markLate st n c = st) ∧
    (∀ i m, findByName st.reg n = some i → st.reg[i]? = some m →
      m.alive = true →
      markLate st n true = { st with reg := st.reg.set i { m with alive := false } } ∧
      (markLate st n true).reg.length = st.reg.length ∧
      (markLate st n true).reg[i]? = some { m with alive := false } ∧
      ∀ j, j ≠ i → (markLate st n true).reg[j]? = st.reg[j]?) := by
  refine ⟨?_, ?_, ?_⟩
  · intro hf
    unfold markLate
    rw [hroot]
    dsimp only
    rw [if_neg hn, hf]
  · intro i m hf hg ha
    unfold markLate
    rw [hroot]
    dsimp only
    rw [if_neg hn, hf]
    dsimp only
    rw [hg]
    dsimp only
    rw [if_pos ha]
  · intro i m hf hg ha
    have hilt : i < st.reg.length := by
      rcases List.getElem?_eq_some_iff.mp hg with ⟨hlt, _⟩
      exact hlt
    have hshape : markLate st n true =
        { st with reg := st.reg.set i { m with alive := false } } := by
      unfold markLate
      rw [hroot]
      dsimp only
      rw [if_neg hn, hf]
      dsimp only
      rw [hg]
      dsimp only
      rw [if_neg (by simp [ha]), if_pos rfl]
    refine ⟨hshape, ?_, ?_, ?_⟩
    · rw [hshape]
      simp
    · rw [hshape]
      dsimp only
      exact List.getElem?_set_self hilt
    · intro j hj
      rw [hshape]
      dsimp only
      exact List.getElem?_set_ne (fun he => hj he.symm)

/-- C8 witness: a miss leaves the one-member state unchanged; marking the
alive root late flips exactly its alive flag. -/
theorem C8_markLate_witness :
    markLate demoState ['q'] true = demoState ∧
    (markLate demoState ['r'] true).reg[0]? =
      some { demoMember with alive := false } := by
  have h1 := C8_markLate demoState 0 ['q'] true (by decide) (by decide)
  have h2 := C8_markLate demoState 0 ['r'] true (by decide) (by decide)
  exact ⟨h1.1 (by decide),
    (h2.2.2 0 demoMember (by decide) (by decide) (by decide)).2.2.1⟩

/-- C4 counterexample: the three-member chain R→A→G is acyclic — the child
relation strictly decreases the rank 3−i — yet the terminating walk expands
member 1's (A's) chain in two distinct generations, so its children are
visited twice, not exactly once. -/
theorem C4_counterexample :
    (∀ i j, j ∈ childrenOf reg3 i → 3 - j < 3 - i) ∧
    childrenOf reg3 1 ≠ [] ∧
    (nextGenOf reg3)^[3] (initialGen reg3 0) = [] ∧
    (walkExpanded reg3 10 (initialGen reg3 0)).count 1 = 2 :=
  ⟨reg3_rank, by decide, by decide, by decide⟩

/-- C4 (amended): for child links admitting a strictly decreasing rank (in
particular any finite acyclic registry) the generation walk terminates, and
within each single generation every parent-having collected child is
expanded exactly once; across the whole walk an individual may be expanded
once per generation in which it occurs as a child. -/
theorem C4_walk_terminates (reg : List Member) (root : Nat) (h : Nat → Nat)
    (hr : ∀ i j, j ∈ childrenOf reg i → h j < h i) :
    (∃ nsteps, (nextGenOf reg)^[nsteps] (initialGen reg root) = []) ∧
    (∀ gen, (expandedParents reg gen).Nodup) ∧
    (∀ gen i, i ∈ allChildren gen → childrenOf reg i ≠ [] →
      (expandedParents reg gen).count i = 1) := by
  refine ⟨walk_terminates reg h hr _, ?_, ?_⟩
  · intro gen
    exact (nodup_collectChildren gen).filter _
  · intro gen i hmem hne
    have hin : i ∈ expandedParents reg gen := by
      unfold expandedParents
      rw [List.mem_filter]
      refine ⟨(mem_collectChildren gen i).mpr hmem, ?_⟩
      simpa [List.isEmpty_iff] using hne
    exact List.count_eq_one_of_mem ((nodup_collectChildren gen).filter _) hin

/-- C4 witness: the walk on the concrete chain terminates and generation 0
expands the root exactly once. -/
theorem C4_walk_terminates_witness :
    (∃ nsteps, (nextGenOf reg3)^[nsteps] (initialGen reg3 0) = []) ∧
    (expandedParents reg3 (initialGen reg3 0)).Nodup ∧
    (expandedParents reg3 (initialGen reg3 0)).count 0 = 1 := by
  have h := C4_walk_terminates reg3 0 (fun i => 3 - i) reg3_rank
  exact ⟨h.1, h.2.1 _, h.2.2 (initialGen reg3 0) 0 (by decide) (by decide)⟩
